import Mathlib

/-!
# Verification of the qvass quantum circuit simulator core

Shallow embedding of the library's data model and operations:
gates, mapped gates, circuits (`src/circuit.rs`, `src/gate.rs`),
the simulator's measurement (`src/simulator.rs`), the QFT builder
(`src/qft.rs`) and the classical number-theory helpers
(`src/classical.rs`).  Machine integers (`u8`, `usize`, `u64`, `i64`)
are embedded as `ℕ` / `ℤ` with explicit wrapping where the source casts;
`f64` is embedded as `ℝ` and `Complex64` as `ℂ`.
-/

namespace Qvass

/-- Errors from circuit construction (`QubitError` in `src/circuit.rs`). -/
inductive QubitError where
  | IndexOutOfBounds : QubitError
  | DuplicatedIndex : QubitError
deriving DecidableEq

mutual

/-- The gate variants of `src/gate.rs` (`enum Gate`).  The `Phase`
payload is the `Complex64` phase factor, embedded as `ℂ`. -/
inductive Gate where
  | Hadamard : Gate
  | Not : Gate
  | Phase : ℂ → Gate
  | Swap : Gate
  | Controlled : Gate → Gate
  | Circuit : Circuit → Gate

/-- `struct MappedGate` of `src/circuit.rs`: a gate kernel, the map from
local state indices to global state indices, and the target-qubit mask. -/
inductive MappedGate where
  | mk : Gate → List ℕ → ℕ → MappedGate

/-- `struct Circuit` of `src/circuit.rs`: an optional qubit-count bound
and an ordered sequence of mapped gates. -/
inductive Circuit where
  | mk : Option ℕ → MGList → Circuit

/-- The `Vec<MappedGate>` inside a circuit, as a dedicated list type so
that the mutual recursion stays structural. -/
inductive MGList where
  | nil : MGList
  | cons : MappedGate → MGList → MGList

end

/-- The gate kernel of a mapped gate. -/
def MappedGate.gate : MappedGate → Gate
  | .mk g _ _ => g

/-- The local-to-global index map of a mapped gate. -/
def MappedGate.state_map : MappedGate → List ℕ
  | .mk _ sm _ => sm

/-- The target-qubit bitmask of a mapped gate. -/
def MappedGate.qubits_mask : MappedGate → ℕ
  | .mk _ _ m => m

/-- The qubit-count bound of a circuit. -/
def Circuit.qubit_count : Circuit → Option ℕ
  | .mk qc _ => qc

/-- The gate sequence of a circuit. -/
def Circuit.gatesMG : Circuit → MGList
  | .mk _ gs => gs

/-- Convert the embedded gate list to a standard list. -/
def MGList.toList : MGList → List MappedGate
  | .nil => []
  | .cons mg rest => mg :: rest.toList

/-- Append two embedded gate lists. -/
def MGList.append : MGList → MGList → MGList
  | .nil, ys => ys
  | .cons x xs, ys => .cons x (xs.append ys)

/-- Push one mapped gate at the end (`Vec::push`). -/
def MGList.push (xs : MGList) (mg : MappedGate) : MGList :=
  xs.append (.cons mg .nil)

/-- The gate sequence of a circuit, as a standard list. -/
def Circuit.gates (c : Circuit) : List MappedGate :=
  c.gatesMG.toList

theorem MGList.toList_append (xs ys : MGList) :
    (xs.append ys).toList = xs.toList ++ ys.toList := by
  match xs with
  | .nil => rfl
  | .cons x xs' => simp [MGList.append, MGList.toList, MGList.toList_append xs' ys]

/-! ## Classical helpers (`src/classical.rs`) -/

/-- The loop of `powmod`: square-and-multiply.  The source keeps
`result` and `base` in `u64`, widening products to `u128`; the cast back
to `u64` is the explicit `% 2^64`.  The `u128` product of two `u64`
values never reaches `2^128`, so the widened arithmetic itself is exact. -/
def powmodLoop (m : ℕ) (result base e : ℕ) : ℕ :=
  if e = 0 then result
  else
    powmodLoop m
      (if e % 2 = 1 then result * base % m % 2 ^ 64 else result)
      (base * base % m % 2 ^ 64) (e / 2)
termination_by e
decreasing_by exact Nat.div_lt_self (Nat.pos_of_ne_zero (by assumption)) one_lt_two

/-- `powmod` of `src/classical.rs`: `(a ^ b) mod m` by binary
exponentiation, `None` when `m = 0`. -/
def powmod (a b m : ℕ) : Option ℕ :=
  if m = 0 then none
  else some (powmodLoop m 1 (a % m) b)

/-- The Euclidean loop of `gcd` (on unsigned magnitudes). -/
def gcdLoop (a b : ℕ) : ℕ :=
  if b = 0 then a else gcdLoop b (a % b)
termination_by b
decreasing_by exact Nat.mod_lt _ (Nat.pos_of_ne_zero (by assumption))

/-- The `u64 → i64` cast (`as i64`): wraps values `≥ 2^63` to negatives. -/
def u64AsI64 (x : ℕ) : ℤ :=
  if x < 2 ^ 63 then (x : ℤ) else (x : ℤ) - 2 ^ 64

/-- `gcd` of `src/classical.rs`: Euclid on the unsigned magnitudes
(`unsigned_abs`), with the result cast back `as i64`. -/
def gcd (a b : ℤ) : ℤ :=
  u64AsI64 (gcdLoop a.natAbs b.natAbs)

theorem gcdLoop_eq_gcd (a b : ℕ) : gcdLoop a b = Nat.gcd a b := by
  induction b using Nat.strong_induction_on generalizing a with
  | _ b ih =>
    rw [gcdLoop]
    by_cases hb : b = 0
    · simp [hb]
    · rw [if_neg hb, ih (a % b) (Nat.mod_lt _ (Nat.pos_of_ne_zero hb))]
      exact ((Nat.gcd_comm a b).trans ((Nat.gcd_rec b a).trans (Nat.gcd_comm _ _))).symm

/-- Correctness of the square-and-multiply loop for a nonzero exponent:
the accumulator picks up `base ^ e` modulo `m`.  Holds for any starting
accumulator, which is what the `m = 1, b = 0` edge case fails to enjoy. -/
theorem powmodLoop_correct (m : ℕ) (hm : m ≠ 0) (hm64 : m < 2 ^ 64) :
    ∀ e r bse, e ≠ 0 → powmodLoop m r bse e = r * bse ^ e % m := by
  intro e
  induction e using Nat.strong_induction_on with
  | _ e ih =>
    intro r bse he
    have hmod64 : ∀ x : ℕ, x % m % 2 ^ 64 = x % m := fun x =>
      Nat.mod_eq_of_lt (lt_of_lt_of_le (Nat.mod_lt x (Nat.pos_of_ne_zero hm)) hm64.le)
    rw [powmodLoop, if_neg he]
    by_cases h2 : e / 2 = 0
    · have he1 : e = 1 := by omega
      subst he1
      have h12 : (1 : ℕ) % 2 = 1 := rfl
      rw [if_pos h12, show (1 : ℕ) / 2 = 0 from rfl, powmodLoop, if_pos rfl, hmod64, pow_one]
    · have hlt : e / 2 < e := Nat.div_lt_self (Nat.pos_of_ne_zero he) one_lt_two
      rw [ih (e / 2) hlt _ _ h2]
      have hsplit : e = 2 * (e / 2) + e % 2 := by omega
      by_cases hodd : e % 2 = 1
      · rw [if_pos hodd, hmod64, hmod64]
        have key : (r * bse % m) * ((bse * bse % m) ^ (e / 2)) ≡ r * bse ^ e [MOD m] := by
          calc (r * bse % m) * ((bse * bse % m) ^ (e / 2))
              ≡ (r * bse) * ((bse * bse) ^ (e / 2)) [MOD m] :=
                Nat.ModEq.mul (Nat.mod_modEq _ _) (Nat.ModEq.pow _ (Nat.mod_modEq _ _))
            _ = r * bse ^ e := by
                conv_rhs => rw [hsplit, hodd]
                rw [pow_succ, pow_mul, pow_two]
                ring
        simpa [Nat.ModEq] using key
      · have heven : e % 2 = 0 := by omega
        rw [if_neg hodd, hmod64]
        have key : r * ((bse * bse % m) ^ (e / 2)) ≡ r * bse ^ e [MOD m] := by
          calc r * ((bse * bse % m) ^ (e / 2))
              ≡ r * ((bse * bse) ^ (e / 2)) [MOD m] :=
                Nat.ModEq.mul (Nat.ModEq.refl r) (Nat.ModEq.pow _ (Nat.mod_modEq _ _))
            _ = r * bse ^ e := by
                conv_rhs => rw [hsplit, heven, Nat.add_zero]
                rw [pow_mul, pow_two]
        simpa [Nat.ModEq] using key

/-- `powmod` at the failing input: `powmod(0, 0, 1)` returns `Some(1)`,
while `(0 ^ 0) mod 1 = 0`, contradicting the function's own doc comment
(`src/classical.rs`: "Computes `(a ^ b) mod m`"). -/
theorem C7_powmod_code_bug_eval :
    powmod 0 0 1 = some 1 ∧ 0 ^ 0 % 1 = 0 := by
  constructor
  · rw [powmod, if_neg one_ne_zero, powmodLoop, if_pos rfl]
  · rfl

/-- Full characterization of `powmod` on `u64` inputs: it is `none` iff
`m = 0`, returns `some 1` when the exponent is `0` (which is `a^b mod m`
except at `m = 1`), and `some (a ^ b % m)` for a nonzero exponent. -/
theorem powmod_characterization (a b m : ℕ) (hm64 : m < 2 ^ 64) :
    powmod a b m =
      if m = 0 then none else some (if b = 0 then 1 else a ^ b % m) := by
  by_cases hm : m = 0
  · simp [powmod, hm]
  · rw [powmod, if_neg hm, if_neg hm]
    by_cases hb : b = 0
    · simp [hb, powmodLoop]
    · rw [if_neg hb, powmodLoop_correct m hm hm64 b 1 (a % m) hb, one_mul]
      conv_rhs => rw [Nat.pow_mod]

/-! ### C8: gcd -/

/-- Counterexample to C8 as stated: at `a = i64::MIN`, `b = 0` the final
`as i64` cast wraps the unsigned magnitude `2^63` back to `i64::MIN`, so
`gcd` does not return `|a|`. -/
theorem C8_gcd_counterexample :
    gcd (-(2 ^ 63)) 0 = -(2 ^ 63) ∧ (-(2 ^ 63) : ℤ) ≠ |(-(2 ^ 63) : ℤ)| := by
  constructor
  · rw [gcd, gcdLoop_eq_gcd]
    norm_num [u64AsI64]
  · rw [abs_of_nonpos (by norm_num)]
    norm_num

/-- C8 amended: `gcd` computes the Euclidean gcd on the unsigned
magnitudes (so no signed-overflow is hit), casts the result back
wrapping, returns `|a|` when `b = 0` except at `a = i64::MIN` (where the
cast wraps to `i64::MIN`), and returns `0` iff both operands are `0`. -/
theorem C8_gcd_amended (a b : ℤ)
    (ha₁ : -(2 ^ 63) ≤ a) (ha₂ : a < 2 ^ 63)
    (hb₁ : -(2 ^ 63) ≤ b) (hb₂ : b < 2 ^ 63) :
    gcd a b = u64AsI64 (Nat.gcd a.natAbs b.natAbs) ∧
      (b = 0 → a ≠ -(2 ^ 63) → gcd a b = |a|) ∧
      (gcd a b = 0 ↔ a = 0 ∧ b = 0) := by
  have hgc : gcd a b = u64AsI64 (Nat.gcd a.natAbs b.natAbs) := by
    rw [gcd, gcdLoop_eq_gcd]
  have hna : a.natAbs ≤ 2 ^ 63 := by
    rcases le_or_lt 0 a with h | h
    · have : a.natAbs < 2 ^ 63 := by omega
      exact this.le
    · omega
  have hnb : b.natAbs ≤ 2 ^ 63 := by
    rcases le_or_lt 0 b with h | h
    · have : b.natAbs < 2 ^ 63 := by omega
      exact this.le
    · omega
  have hgle : Nat.gcd a.natAbs b.natAbs ≤ 2 ^ 63 := by
    by_cases h0 : a.natAbs = 0
    · rw [h0, Nat.gcd_zero_left]
      exact hnb
    · exact le_trans (Nat.gcd_le_left _ (Nat.pos_of_ne_zero h0)) hna
  refine ⟨hgc, ?_, ?_⟩
  · intro hb0 hamin
    subst hb0
    rw [hgc]
    have hlt : a.natAbs < 2 ^ 63 := by omega
    rw [Int.natAbs_zero, Nat.gcd_zero_right, u64AsI64, if_pos hlt, Int.abs_eq_natAbs]
  · rw [hgc, u64AsI64]
    constructor
    · intro h
      by_cases hc : Nat.gcd a.natAbs b.natAbs < 2 ^ 63
      · rw [if_pos hc] at h
        have hg0 : Nat.gcd a.natAbs b.natAbs = 0 := by exact_mod_cast h
        have h1 := Nat.eq_zero_of_gcd_eq_zero_left hg0
        have h2 := Nat.eq_zero_of_gcd_eq_zero_right hg0
        omega
      · rw [if_neg hc] at h
        have hle : (Nat.gcd a.natAbs b.natAbs : ℤ) ≤ 2 ^ 63 := by exact_mod_cast hgle
        omega
    · rintro ⟨rfl, rfl⟩
      simp [u64AsI64]

/-- Witness for the amended C8 at a concrete in-range input. -/
theorem C8_gcd_amended_witness :
    gcd (-54) 24 = u64AsI64 (Nat.gcd (Int.natAbs (-54)) (Int.natAbs 24)) ∧
      ((24 : ℤ) = 0 → (-54 : ℤ) ≠ -(2 ^ 63) → gcd (-54) 24 = |(-54 : ℤ)|) ∧
      (gcd (-54) 24 = 0 ↔ (-54 : ℤ) = 0 ∧ (24 : ℤ) = 0) :=
  C8_gcd_amended (-54) 24 (by norm_num) (by norm_num) (by norm_num) (by norm_num)

/-! ## Gate operations (`src/gate.rs`) -/

/-- `Gate::count_controlled`: depth of leading `Controlled` wrappers. -/
def Gate.count_controlled : Gate → ℕ
  | .Controlled inner => inner.count_controlled + 1
  | _ => 0

/-- `Gate::control`. -/
def Gate.control (g : Gate) : Gate := .Controlled g

/-- `Gate::phase_radians(angle)`: `Phase(e^{i·angle})`
(`Complex64::new(0.0, angle).exp()`). -/
noncomputable def Gate.phase_radians (angle : ℝ) : Gate :=
  .Phase (Complex.exp (Complex.I * angle))

/-- `Gate::phase_fraction(fraction)`: a phase of `2π · fraction` radians. -/
noncomputable def Gate.phase_fraction (fraction : ℝ) : Gate :=
  Gate.phase_radians (2 * Real.pi * fraction)

mutual

/-- `Gate::inverse` of `src/gate.rs`: self-adjoint basics, conjugated
phase, recursive inverse for `Controlled` and `Circuit`. -/
def Gate.inverse : Gate → Gate
  | .Hadamard => .Hadamard
  | .Not => .Not
  | .Swap => .Swap
  | .Phase c => .Phase ((starRingEnd ℂ) c)
  | .Controlled inner => .Controlled inner.inverse
  | .Circuit c => .Circuit c.inverse

/-- `Circuit::inverse` of `src/circuit.rs`: gates in reverse order, each
gate kernel inverted, `state_map` / `qubits_mask` untouched.  A pure
function: the source circuit is unchanged (the embedding is functional,
mirroring that `inverse(&self)` only reads `self`). -/
def Circuit.inverse : Circuit → Circuit
  | .mk qc gs => .mk qc gs.invRev

/-- Reverse a mapped-gate list while inverting each gate kernel
(`self.gates.iter().rev().map(...)`). -/
def MGList.invRev : MGList → MGList
  | .nil => .nil
  | .cons mg rest => rest.invRev.push mg.inverseMapped

/-- Invert the gate kernel of one `MappedGate`, keeping its map. -/
def MappedGate.inverseMapped : MappedGate → MappedGate
  | .mk g sm mask => .mk g.inverse sm mask

end

/-! ## Circuit construction (`src/circuit.rs`) -/

/-- `MAX_QUBITS` of `src/circuit.rs`. -/
def MAX_QUBITS : ℕ := 32

/-- `Circuit::new`: `none` models the `assert!(qubit_count <= MAX_QUBITS)`
panic; note the assert has no lower bound. -/
def Circuit.new? (qubit_count : ℕ) : Option Circuit :=
  if qubit_count ≤ MAX_QUBITS then some (.mk (some qubit_count) .nil) else none

/-- `QuantumSimulator::new` (`src/simulator.rs`): asserts `n_qubits > 0`,
allocates the zeroed state of size `2^n`, and builds `Circuit::new(n)`
(which asserts `n ≤ 32`).  `none` models either panic. -/
def QuantumSimulator.new? (n_qubits : ℕ) : Option (Circuit × List ℂ) :=
  if n_qubits = 0 then none
  else (Circuit.new? n_qubits).map fun c => (c, List.replicate (2 ^ n_qubits) 0)

/-- Counterexample to C9 as stated: `Circuit::new(0)` does not panic —
the constructor only asserts the upper bound, so a qubit count of `0`
(outside `1 ≤ n ≤ 32`) succeeds. -/
theorem C9_circuit_new_counterexample :
    Circuit.new? 0 = some (.mk (some 0) .nil) := rfl

/-- C9 amended: `Circuit::new(n)` panics iff `n > 32` (it accepts `0`),
while `QuantumSimulator::new(n)` panics exactly when `n` is outside
`1 ≤ n ≤ 32`; both succeed on the whole range `1..=32`. -/
theorem C9_new_panics_amended (n : ℕ) (hn : n < 256) :
    ((Circuit.new? n).isSome ↔ n ≤ 32) ∧
      ((QuantumSimulator.new? n).isSome ↔ 1 ≤ n ∧ n ≤ 32) := by
  have h1 : (Circuit.new? n).isSome ↔ n ≤ 32 := by
    rw [Circuit.new?, MAX_QUBITS]
    by_cases h : n ≤ 32
    · simp [h]
    · simp [h]
  refine ⟨h1, ?_⟩
  rw [QuantumSimulator.new?]
  by_cases h0 : n = 0
  · simp [h0]
  · rw [if_neg h0]
    have hmap : ((Circuit.new? n).map
        fun c => (c, List.replicate (2 ^ n) (0 : ℂ))).isSome = (Circuit.new? n).isSome := by
      cases Circuit.new? n <;> rfl
    rw [hmap, h1]
    omega

/-- Witness for the amended C9 at `n = 33`. -/
theorem C9_new_panics_amended_witness :
    (((Circuit.new? 33).isSome ↔ (33 : ℕ) ≤ 32) ∧
      ((QuantumSimulator.new? 33).isSome ↔ 1 ≤ (33 : ℕ) ∧ (33 : ℕ) ≤ 32)) :=
  C9_new_panics_amended 33 (by decide)

/-! ## Inversion is an involution (C10) and circuit inversion (C3) -/

theorem MGList.append_nil (xs : MGList) : xs.append .nil = xs := by
  match xs with
  | .nil => rfl
  | .cons x xs' => rw [MGList.append, MGList.append_nil xs']

theorem MGList.append_assoc (xs ys zs : MGList) :
    (xs.append ys).append zs = xs.append (ys.append zs) := by
  match xs with
  | .nil => rfl
  | .cons x xs' => rw [MGList.append, MGList.append, MGList.append,
      MGList.append_assoc xs' ys zs]

theorem MGList.invRev_append (xs ys : MGList) :
    (xs.append ys).invRev = ys.invRev.append xs.invRev := by
  match xs with
  | .nil => rw [MGList.append, MGList.invRev, MGList.append_nil]
  | .cons x xs' =>
      rw [MGList.append, MGList.invRev, MGList.invRev, MGList.invRev_append xs' ys,
        MGList.push, MGList.push, MGList.append_assoc]

mutual

theorem gate_inverse_invol : ∀ g : Gate, g.inverse.inverse = g
  | .Hadamard => rfl
  | .Not => rfl
  | .Swap => rfl
  | .Phase c => by rw [Gate.inverse, Gate.inverse, Complex.conj_conj]
  | .Controlled inner => by
      rw [Gate.inverse, Gate.inverse, gate_inverse_invol inner]
  | .Circuit c => by
      rw [Gate.inverse, Gate.inverse, circuit_inverse_invol c]

theorem circuit_inverse_invol : ∀ c : Circuit, c.inverse.inverse = c
  | .mk qc gs => by
      rw [Circuit.inverse, Circuit.inverse, MGList.invRev_invRev gs]

theorem MGList.invRev_invRev : ∀ gs : MGList, gs.invRev.invRev = gs
  | .nil => rfl
  | .cons mg rest => by
      rw [MGList.invRev, MGList.push, MGList.invRev_append, MGList.invRev,
        MGList.invRev, MGList.push, MGList.append, MGList.append,
        MappedGate.inverseMapped_inverseMapped mg, MGList.invRev_invRev rest,
        MGList.append]

theorem MappedGate.inverseMapped_inverseMapped :
    ∀ mg : MappedGate, mg.inverseMapped.inverseMapped = mg
  | .mk g sm mask => by
      rw [MappedGate.inverseMapped, MappedGate.inverseMapped, gate_inverse_invol g]

end

/-- C10: gate and circuit inversion are involutions — `inverse` applied
twice returns a structurally equal gate / circuit (same qubit count,
gate order, `state_map` and `qubits_mask`). -/
theorem C10_inverse_involution :
    (∀ g : Gate, g.inverse.inverse = g) ∧ (∀ c : Circuit, c.inverse.inverse = c) :=
  ⟨gate_inverse_invol, circuit_inverse_invol⟩

theorem MGList.toList_push (xs : MGList) (mg : MappedGate) :
    (xs.push mg).toList = xs.toList ++ [mg] := by
  rw [MGList.push, MGList.toList_append]
  rfl

theorem MGList.toList_invRev (gs : MGList) :
    gs.invRev.toList = (gs.toList.reverse).map MappedGate.inverseMapped := by
  match gs with
  | .nil => rfl
  | .cons mg rest =>
      rw [MGList.invRev, MGList.toList_push, MGList.toList_invRev rest]
      simp [MGList.toList]

/-- C3: `Circuit::inverse` returns a new circuit with the same
`qubit_count`, the mapped gates in reverse order, each gate kernel
replaced by its `Gate::inverse` while `state_map` and `qubits_mask` are
kept; the source circuit is not mutated (the embedding is a pure
function of the source circuit). -/
theorem C3_circuit_inverse (c : Circuit) :
    (c.inverse).qubit_count = c.qubit_count ∧
      (c.inverse).gates.length = c.gates.length ∧
      ∀ i, i < c.gates.length →
        ((c.inverse).gates[i]?.map MappedGate.gate =
            (c.gates[c.gates.length - 1 - i]?).map (fun mg => mg.gate.inverse)) ∧
          ((c.inverse).gates[i]?.map MappedGate.state_map =
            (c.gates[c.gates.length - 1 - i]?).map MappedGate.state_map) ∧
          ((c.inverse).gates[i]?.map MappedGate.qubits_mask =
            (c.gates[c.gates.length - 1 - i]?).map MappedGate.qubits_mask) := by
  obtain ⟨qc, gs⟩ := c
  have hgates : (Circuit.mk qc gs).inverse.gates =
      ((Circuit.mk qc gs).gates.reverse).map MappedGate.inverseMapped := by
    rw [Circuit.inverse, Circuit.gates, Circuit.gatesMG, MGList.toList_invRev]
    rfl
  refine ⟨rfl, ?_, ?_⟩
  · rw [hgates]
    simp
  · intro i hi
    rw [hgates]
    rw [Circuit.gates, Circuit.gatesMG] at hi ⊢
    have hrev : (gs.toList.reverse)[i]? = gs.toList[gs.toList.length - 1 - i]? := by
      rw [List.getElem?_reverse hi]
    rw [List.getElem?_map, hrev]
    cases h : gs.toList[gs.toList.length - 1 - i]? with
    | none => simp
    | some mg =>
        obtain ⟨g, sm, mask⟩ := mg
        simp [MappedGate.inverseMapped, MappedGate.gate, MappedGate.state_map,
          MappedGate.qubits_mask]

/-- Witness for C3 on a concrete two-gate circuit, at index `0`. -/
theorem C3_circuit_inverse_witness :
    ((Circuit.mk (some 2)
          (.cons (.mk .Hadamard [0, 1] 1) (.cons (.mk .Not [0, 2] 2) .nil))).inverse.gates[0]?.map
        MappedGate.gate =
      ((Circuit.mk (some 2)
            (.cons (.mk .Hadamard [0, 1] 1) (.cons (.mk .Not [0, 2] 2) .nil))).gates[
          (Circuit.mk (some 2)
            (.cons (.mk .Hadamard [0, 1] 1)
              (.cons (.mk .Not [0, 2] 2) .nil))).gates.length - 1 - 0]?).map
        (fun mg => mg.gate.inverse)) :=
  ((C3_circuit_inverse
      (Circuit.mk (some 2)
        (.cons (.mk .Hadamard [0, 1] 1) (.cons (.mk .Not [0, 2] 2) .nil)))).2.2 0
    (by decide)).1

/-! ## MappedGate construction (`src/circuit.rs`) -/

/-- `MappedGate::calc_local_bit_pos`: controls go to the most significant
local bits in reversed order, targets keep their order in the low bits. -/
def calc_local_bit_pos (input_index qubit_count n_controlled : ℕ) : ℕ :=
  if input_index < n_controlled then qubit_count - input_index - 1
  else input_index - n_controlled

/-- The bounds test of `MappedGate::new`
(`if let Some(max_qubits) = max_qubits { if qubit_index >= max_qubits ... }`). -/
def outOfBounds (max_qubits : Option ℕ) (q : ℕ) : Bool :=
  match max_qubits with
  | some mq => mq ≤ q
  | none => false

/-- The inner `for (i, inner_index) in state_map.iter_mut().enumerate()`
loop: OR `1 << q` into every entry whose index has the `lbp` bit set;
`i` is the running enumeration index. -/
def orInto (lbp q : ℕ) : ℕ → List ℕ → List ℕ
  | _, [] => []
  | i, v :: rest =>
      (if i &&& (1 <<< lbp) ≠ 0 then v ||| (1 <<< q) else v) :: orInto lbp q (i + 1) rest

/-- The main loop of `MappedGate::new` over the qubit indices, carrying
the enumeration position `p`, the state map and the accumulated mask. -/
def MappedGate.newLoop (k c : ℕ) (maxQ : Option ℕ) :
    List ℕ → ℕ → List ℕ → ℕ → Except QubitError (List ℕ × ℕ)
  | [], _, sm, mask => .ok (sm, mask)
  | q :: rest, p, sm, mask =>
      let local_bit_pos := calc_local_bit_pos p k c
      if outOfBounds maxQ q then .error .IndexOutOfBounds
      else if mask &&& (1 <<< q) ≠ 0 then .error .DuplicatedIndex
      else
        MappedGate.newLoop k c maxQ rest (p + 1)
          (orInto local_bit_pos q 0 sm) (mask ||| (1 <<< q))

/-- `MappedGate::new`: run the loop from a zeroed `state_map` of length
`2^k` and an empty mask. -/
def MappedGate.new (gate : Gate) (qubit_indices : List ℕ) (max_qubits : Option ℕ) :
    Except QubitError MappedGate :=
  match MappedGate.newLoop qubit_indices.length gate.count_controlled max_qubits
      qubit_indices 0 (List.replicate (2 ^ qubit_indices.length) 0) 0 with
  | .error e => .error e
  | .ok (sm, mask) => .ok (.mk gate sm mask)

/-- `Circuit::add_gate`: build the mapped gate, bail out on error before
touching the gate list, push on success.  The returned pair models the
`&mut self` receiver together with the `Result<(), QubitError>`. -/
def Circuit.add_gate (c : Circuit) (gate : Gate) (qubit_indices : List ℕ) :
    Except QubitError Unit × Circuit :=
  match MappedGate.new gate qubit_indices c.qubit_count with
  | .error e => (.error e, c)
  | .ok mg => (.ok (), .mk c.qubit_count (c.gatesMG.push mg))

theorem and_one_shiftLeft_ne_zero (x q : ℕ) :
    (x &&& (1 <<< q) ≠ 0) ↔ x.testBit q = true := by
  rw [Nat.one_shiftLeft, Nat.and_two_pow]
  cases h : x.testBit q <;> simp [(Nat.two_pow_pos q).ne']

theorem testBit_one_shiftLeft (q b : ℕ) :
    (1 <<< q).testBit b = true ↔ q = b := by
  rw [Nat.one_shiftLeft]
  constructor
  · intro h
    by_contra hne
    rw [Nat.testBit_two_pow_of_ne hne] at h
    exact Bool.false_ne_true h
  · rintro rfl
    exact Nat.testBit_two_pow_self

/-- Success of the `MappedGate::new` loop, for an arbitrary starting
mask: every index passes the bounds test, the list has no duplicates,
and no index collides with a bit already in the mask. -/
theorem newLoop_ok_iff (k c : ℕ) (maxQ : Option ℕ) :
    ∀ (qs : List ℕ) (p : ℕ) (sm : List ℕ) (mask : ℕ),
      (∃ out, MappedGate.newLoop k c maxQ qs p sm mask = .ok out) ↔
        (∀ q ∈ qs, outOfBounds maxQ q = false) ∧ qs.Nodup ∧
          (∀ q ∈ qs, mask.testBit q = false) := by
  intro qs
  induction qs with
  | nil => simp [MappedGate.newLoop]
  | cons q rest ih =>
    intro p sm mask
    rw [MappedGate.newLoop]
    cases hoob : outOfBounds maxQ q with
    | true =>
      rw [if_pos rfl]
      constructor
      · rintro ⟨out, hout⟩
        exact Except.noConfusion hout
      · rintro ⟨hb, -⟩
        rw [hb q (List.mem_cons_self q rest)] at hoob
        exact Bool.noConfusion hoob
    | false =>
      rw [if_neg Bool.false_ne_true]
      by_cases hdup : mask &&& (1 <<< q) ≠ 0
      · rw [if_pos hdup]
        constructor
        · rintro ⟨out, hout⟩
          exact Except.noConfusion hout
        · rintro ⟨-, -, hm⟩
          rw [and_one_shiftLeft_ne_zero] at hdup
          rw [hm q (List.mem_cons_self q rest)] at hdup
          exact Bool.noConfusion hdup
      · rw [if_neg hdup]
        rw [ih (p + 1) (orInto (calc_local_bit_pos p k c) q 0 sm) (mask ||| (1 <<< q))]
        have hdup' : mask.testBit q = false := by
          cases hb : mask.testBit q
          · rfl
          · exact absurd ((and_one_shiftLeft_ne_zero mask q).mpr hb) hdup
        constructor
        · rintro ⟨hb, hnd, hm⟩
          have hqrest : q ∉ rest := by
            intro hmem
            have := hm q hmem
            rw [Nat.testBit_lor, Nat.one_shiftLeft, Nat.testBit_two_pow_self] at this
            simp at this
          refine ⟨?_, List.Nodup.cons hqrest hnd, ?_⟩
          · intro q' hq'
            rcases List.mem_cons.mp hq' with rfl | hq'
            · exact hoob
            · exact hb q' hq'
          · intro q' hq'
            rcases List.mem_cons.mp hq' with rfl | hq'
            · exact hdup'
            · have := hm q' hq'
              rw [Nat.testBit_lor] at this
              exact (Bool.or_eq_false_iff.mp this).1
        · rintro ⟨hb, hnd, hm⟩
          refine ⟨fun q' hq' => hb q' (List.mem_cons_of_mem q hq'), (List.nodup_cons.mp hnd).2,
            fun q' hq' => ?_⟩
          rw [Nat.testBit_lor, Bool.or_eq_false_iff]
          refine ⟨hm q' (List.mem_cons_of_mem q hq'), ?_⟩
          rw [← Bool.not_eq_true, testBit_one_shiftLeft]
          rintro rfl
          exact (List.nodup_cons.mp hnd).1 hq'

/-- An `IndexOutOfBounds` error implies some index failed the bounds
test. -/
theorem newLoop_error_oob (k c : ℕ) (maxQ : Option ℕ) :
    ∀ (qs : List ℕ) (p : ℕ) (sm : List ℕ) (mask : ℕ),
      MappedGate.newLoop k c maxQ qs p sm mask = .error .IndexOutOfBounds →
        ∃ q ∈ qs, outOfBounds maxQ q = true := by
  intro qs
  induction qs with
  | nil => intro p sm mask h; exact absurd h (by simp [MappedGate.newLoop])
  | cons q rest ih =>
    intro p sm mask h
    rw [MappedGate.newLoop] at h
    cases hoob : outOfBounds maxQ q with
    | true => exact ⟨q, List.mem_cons_self q rest, hoob⟩
    | false =>
      rw [if_neg (by rw [hoob]; exact Bool.false_ne_true)] at h
      by_cases hdup : mask &&& (1 <<< q) ≠ 0
      · rw [if_pos hdup] at h
        exact QubitError.noConfusion (Except.error.inj h)
      · rw [if_neg hdup] at h
        obtain ⟨q', hq', hq'oob⟩ := ih _ _ _ h
        exact ⟨q', List.mem_cons_of_mem q hq', hq'oob⟩

/-- A `DuplicatedIndex` error implies the list duplicates an index or
collides with the starting mask. -/
theorem newLoop_error_dup (k c : ℕ) (maxQ : Option ℕ) :
    ∀ (qs : List ℕ) (p : ℕ) (sm : List ℕ) (mask : ℕ),
      MappedGate.newLoop k c maxQ qs p sm mask = .error .DuplicatedIndex →
        ¬(qs.Nodup ∧ ∀ q ∈ qs, mask.testBit q = false) := by
  intro qs
  induction qs with
  | nil => intro p sm mask h; exact absurd h (by simp [MappedGate.newLoop])
  | cons q rest ih =>
    intro p sm mask h
    rw [MappedGate.newLoop] at h
    cases hoob : outOfBounds maxQ q with
    | true =>
      rw [if_pos hoob] at h
      exact QubitError.noConfusion (Except.error.inj h)
    | false =>
      rw [if_neg (by rw [hoob]; exact Bool.false_ne_true)] at h
      by_cases hdup : mask &&& (1 <<< q) ≠ 0
      · rintro ⟨hnd, hm⟩
        rw [and_one_shiftLeft_ne_zero] at hdup
        rw [hm q (List.mem_cons_self q rest)] at hdup
        exact Bool.noConfusion hdup
      · rw [if_neg hdup] at h
        rintro ⟨hnd, hm⟩
        refine ih _ _ _ h ⟨(List.nodup_cons.mp hnd).2, fun q' hq' => ?_⟩
        rw [Nat.testBit_lor, Bool.or_eq_false_iff]
        refine ⟨hm q' (List.mem_cons_of_mem q hq'), ?_⟩
        rw [← Bool.not_eq_true, testBit_one_shiftLeft]
        rintro rfl
        exact (List.nodup_cons.mp hnd).1 hq'

theorem outOfBounds_some_false (n q : ℕ) : outOfBounds (some n) q = false ↔ q < n := by
  simp [outOfBounds]

theorem outOfBounds_some_true (n q : ℕ) : outOfBounds (some n) q = true ↔ n ≤ q := by
  simp [outOfBounds]

/-- The core characterization of `Circuit::add_gate` on a bound
circuit. -/
theorem add_gate_core (c : Circuit) (n : ℕ) (hqc : c.qubit_count = some n)
    (g : Gate) (qs : List ℕ) :
    ((c.add_gate g qs).1 = .ok () ↔ (∀ q ∈ qs, q < n) ∧ qs.Nodup) ∧
      ((c.add_gate g qs).1 = .error .IndexOutOfBounds → ∃ q ∈ qs, n ≤ q) ∧
      ((c.add_gate g qs).1 = .error .DuplicatedIndex → ¬qs.Nodup) ∧
      (∀ e, (c.add_gate g qs).1 = .error e → (c.add_gate g qs).2 = c) := by
  have htriv : ∀ q ∈ qs, (0 : ℕ).testBit q = false := fun q _ => Nat.zero_testBit q
  rw [Circuit.add_gate, MappedGate.new, hqc]
  cases hr : MappedGate.newLoop qs.length g.count_controlled (some n) qs 0
      (List.replicate (2 ^ qs.length) 0) 0 with
  | error e =>
    have hnotok : ¬((∀ q ∈ qs, q < n) ∧ qs.Nodup) := by
      rintro ⟨hb, hnd⟩
      obtain ⟨out, hout⟩ := (newLoop_ok_iff qs.length g.count_controlled (some n)
          qs 0 (List.replicate (2 ^ qs.length) 0) 0).mpr
        ⟨fun q hq => (outOfBounds_some_false n q).mpr (hb q hq), hnd, htriv⟩
      rw [hr] at hout
      exact Except.noConfusion hout
    refine ⟨?_, ?_, ?_, ?_⟩
    · constructor
      · intro hok
        exact Except.noConfusion hok
      · intro hcond
        exact absurd hcond hnotok
    · intro herr
      have he : e = .IndexOutOfBounds := Except.error.inj herr
      subst he
      obtain ⟨q, hq, hqo⟩ := newLoop_error_oob _ _ _ _ _ _ _ hr
      exact ⟨q, hq, (outOfBounds_some_true n q).mp hqo⟩
    · intro herr
      have he : e = .DuplicatedIndex := Except.error.inj herr
      subst he
      intro hnd
      exact newLoop_error_dup _ _ _ _ _ _ _ hr ⟨hnd, htriv⟩
    · intro e' _
      rfl
  | ok out =>
    refine ⟨?_, ?_, ?_, ?_⟩
    · constructor
      · intro _
        have hcond := (newLoop_ok_iff qs.length g.count_controlled (some n)
            qs 0 (List.replicate (2 ^ qs.length) 0) 0).mp ⟨out, hr⟩
        exact ⟨fun q hq => (outOfBounds_some_false n q).mp (hcond.1 q hq), hcond.2.1⟩
      · intro _
        rfl
    · intro herr
      exact Except.noConfusion herr
    · intro herr
      exact Except.noConfusion herr
    · intro e' herr
      exact Except.noConfusion herr

/-- C4: `Circuit::add_gate` on a bound circuit succeeds exactly when all
qubit indices are in range and pairwise distinct; it returns
`IndexOutOfBounds` when an index is out of range (and the list has no
duplicate), `DuplicatedIndex` when an index repeats (and all are in
range); each error kind implies its condition, and any error leaves the
circuit unchanged (atomicity: the `?` on `MappedGate::new` returns
before the `push`). -/
theorem C4_add_gate_errors (c : Circuit) (n : ℕ) (hqc : c.qubit_count = some n)
    (g : Gate) (qs : List ℕ) :
    ((c.add_gate g qs).1 = .ok () ↔ (∀ q ∈ qs, q < n) ∧ qs.Nodup) ∧
      ((c.add_gate g qs).1 = .error .IndexOutOfBounds → ∃ q ∈ qs, n ≤ q) ∧
      ((c.add_gate g qs).1 = .error .DuplicatedIndex → ¬qs.Nodup) ∧
      ((∃ q ∈ qs, n ≤ q) → qs.Nodup →
        (c.add_gate g qs).1 = .error .IndexOutOfBounds) ∧
      ((∀ q ∈ qs, q < n) → ¬qs.Nodup →
        (c.add_gate g qs).1 = .error .DuplicatedIndex) ∧
      (∀ e, (c.add_gate g qs).1 = .error e → (c.add_gate g qs).2 = c) := by
  obtain ⟨hok, hioob, hdup, hatomic⟩ := add_gate_core c n hqc g qs
  refine ⟨hok, hioob, hdup, ?_, ?_, hatomic⟩
  · intro hP hnd
    cases hres : (c.add_gate g qs).1 with
    | ok u =>
      cases u
      obtain ⟨hb, -⟩ := hok.mp hres
      obtain ⟨q, hq, hge⟩ := hP
      exact absurd (hb q hq) (by omega)
    | error e =>
      cases e with
      | IndexOutOfBounds => rfl
      | DuplicatedIndex => exact absurd hnd (hdup hres)
  · intro hb hnd
    cases hres : (c.add_gate g qs).1 with
    | ok u =>
      cases u
      exact absurd (hok.mp hres).2 hnd
    | error e =>
      cases e with
      | IndexOutOfBounds =>
        obtain ⟨q, hq, hge⟩ := hioob hres
        exact absurd (hb q hq) (by omega)
      | DuplicatedIndex => rfl

/-- Witness for C4: adding a CNOT on qubits `[0, 1]` of a 2-qubit
circuit succeeds. -/
theorem C4_add_gate_errors_witness :
    ((Circuit.mk (some 2) .nil).add_gate (.Controlled .Not) [0, 1]).1 = .ok () ↔
      (∀ q ∈ [0, 1], q < 2) ∧ ([0, 1] : List ℕ).Nodup :=
  (C4_add_gate_errors (Circuit.mk (some 2) .nil) 2 rfl (.Controlled .Not) [0, 1]).1

/-! ### C2: the `state_map` bijection -/

/-- Accumulated `qubits_mask` over a list of qubit indices. -/
def maskOf : List ℕ → ℕ
  | [] => 0
  | q :: rest => (1 <<< q) ||| maskOf rest

/-- The bits contributed to `state_map[i]` by the loop, position by
position: index list element at position `p + j` contributes `1 << q`
when bit `calc_local_bit_pos` of the local index `i` is set. -/
def entry (k c : ℕ) : List ℕ → ℕ → ℕ → ℕ
  | [], _, _ => 0
  | q :: rest, p, i =>
      (if i.testBit (calc_local_bit_pos p k c) then (1 <<< q) else 0) |||
        entry k c rest (p + 1) i

/-- The inverse direction: recover the local index from a global offset
`w` by collecting the local-bit positions of the qubits set in `w`. -/
def decode (k c : ℕ) : List ℕ → ℕ → ℕ → ℕ
  | [], _, _ => 0
  | q :: rest, p, w =>
      (if w.testBit q then (1 <<< calc_local_bit_pos p k c) else 0) |||
        decode k c rest (p + 1) w

theorem orInto_length (lbp q : ℕ) :
    ∀ (s : List ℕ) (i0 : ℕ), (orInto lbp q i0 s).length = s.length := by
  intro s
  induction s with
  | nil => intro i0; rfl
  | cons v rest ih => intro i0; rw [orInto]; simp [ih]

theorem orInto_getElem? (lbp q : ℕ) :
    ∀ (s : List ℕ) (i0 j : ℕ),
      (orInto lbp q i0 s)[j]? =
        s[j]?.map fun v => if (i0 + j).testBit lbp then v ||| (1 <<< q) else v := by
  intro s
  induction s with
  | nil => intro i0 j; simp [orInto]
  | cons v rest ih =>
    intro i0 j
    rw [orInto]
    cases j with
    | zero =>
      rw [List.getElem?_cons_zero, List.getElem?_cons_zero, Option.map_some']
      congr 1
      rw [Nat.add_zero]
      by_cases hbit : i0.testBit lbp = true
      · rw [if_pos ((and_one_shiftLeft_ne_zero i0 lbp).mpr hbit), if_pos hbit]
      · rw [Bool.not_eq_true] at hbit
        rw [if_neg (fun hc => by
            rw [(and_one_shiftLeft_ne_zero i0 lbp).mp hc] at hbit
            exact Bool.noConfusion hbit),
          if_neg (by rw [hbit]; exact Bool.false_ne_true)]
    | succ j' =>
      rw [List.getElem?_cons_succ, List.getElem?_cons_succ, ih (i0 + 1) j',
        show i0 + 1 + j' = i0 + (j' + 1) by omega]

/-- What a successful run of the `MappedGate::new` loop computes: the
final mask ORs in all qubit bits, and every `state_map` entry picks up
exactly the bits described by `entry`. -/
theorem newLoop_ok_spec (k c : ℕ) (maxQ : Option ℕ) :
    ∀ (qs : List ℕ) (p : ℕ) (sm : List ℕ) (mask : ℕ) (sm' : List ℕ) (mask' : ℕ),
      MappedGate.newLoop k c maxQ qs p sm mask = .ok (sm', mask') →
        mask' = mask ||| maskOf qs ∧ sm'.length = sm.length ∧
          ∀ j, sm'[j]? = sm[j]?.map fun v => v ||| entry k c qs p j := by
  intro qs
  induction qs with
  | nil =>
    intro p sm mask sm' mask' h
    rw [MappedGate.newLoop] at h
    obtain ⟨rfl, rfl⟩ := Prod.mk.injEq .. ▸ (Except.ok.inj h)
    refine ⟨by rw [maskOf, Nat.or_zero], rfl, fun j => ?_⟩
    rw [entry]
    cases sm[j]? <;> simp
  | cons q rest ih =>
    intro p sm mask sm' mask' h
    rw [MappedGate.newLoop] at h
    cases hoob : outOfBounds maxQ q with
    | true =>
      rw [if_pos hoob] at h
      exact Except.noConfusion h
    | false =>
      rw [if_neg (by rw [hoob]; exact Bool.false_ne_true)] at h
      by_cases hdup : mask &&& (1 <<< q) ≠ 0
      · rw [if_pos hdup] at h
        exact Except.noConfusion h
      · rw [if_neg hdup] at h
        obtain ⟨hmask, hlen, hsm⟩ := ih _ _ _ _ _ h
        refine ⟨?_, ?_, ?_⟩
        · rw [hmask, maskOf, Nat.lor_assoc]
        · rw [hlen, orInto_length]
        · intro j
          rw [hsm j, orInto_getElem?, Option.map_map]
          cases hj : sm[j]? with
          | none => rfl
          | some v =>
            rw [Option.map_some', Option.map_some']
            congr 1
            show (if (0 + j).testBit (calc_local_bit_pos p k c) then v ||| 1 <<< q else v) |||
                entry k c rest (p + 1) j = v ||| entry k c (q :: rest) p j
            rw [Nat.zero_add, entry]
            by_cases hbit : j.testBit (calc_local_bit_pos p k c) = true
            · rw [if_pos hbit, if_pos hbit, Nat.lor_assoc]
            · rw [Bool.not_eq_true] at hbit
              rw [if_neg (by rw [hbit]; exact Bool.false_ne_true),
                if_neg (by rw [hbit]; exact Bool.false_ne_true), Nat.zero_or]

/-- A successful `MappedGate::new` yields the gate unchanged, the mask
`maskOf qs`, a `state_map` of length `2^k` whose `i`-th entry is
`entry i`, and (from the duplicate check) a duplicate-free index list. -/
theorem new_ok_spec (g : Gate) (qs : List ℕ) (mq : Option ℕ) (mg : MappedGate)
    (h : MappedGate.new g qs mq = .ok mg) :
    mg.gate = g ∧ mg.qubits_mask = maskOf qs ∧
      mg.state_map.length = 2 ^ qs.length ∧ qs.Nodup ∧
      ∀ i, i < 2 ^ qs.length →
        mg.state_map[i]? = some (entry qs.length g.count_controlled qs 0 i) := by
  rw [MappedGate.new] at h
  cases hr : MappedGate.newLoop qs.length g.count_controlled mq qs 0
      (List.replicate (2 ^ qs.length) 0) 0 with
  | error e =>
    rw [hr] at h
    exact Except.noConfusion h
  | ok out =>
    obtain ⟨sm, mask⟩ := out
    rw [hr] at h
    have hmg : mg = .mk g sm mask := (Except.ok.inj h).symm
    subst hmg
    obtain ⟨hmask, hlen, hsm⟩ := newLoop_ok_spec _ _ _ _ _ _ _ _ _ hr
    have hnd : qs.Nodup :=
      ((newLoop_ok_iff qs.length g.count_controlled mq qs 0
          (List.replicate (2 ^ qs.length) 0) 0).mp ⟨_, hr⟩).2.1
    refine ⟨rfl, ?_, ?_, hnd, ?_⟩
    · show mask = maskOf qs
      rw [hmask, Nat.zero_or]
    · show sm.length = 2 ^ qs.length
      rw [hlen, List.length_replicate]
    · intro i hi
      show sm[i]? = _
      rw [hsm i, List.getElem?_replicate, if_pos hi, Option.map_some', Nat.zero_or]

theorem clbp_lt (j k c : ℕ) (hj : j < k) : calc_local_bit_pos j k c < k := by
  rw [calc_local_bit_pos]
  split <;> omega

theorem clbp_inj (j j' k c : ℕ) (hj : j < k) (hj' : j' < k)
    (h : calc_local_bit_pos j k c = calc_local_bit_pos j' k c) : j = j' := by
  rw [calc_local_bit_pos, calc_local_bit_pos] at h
  split at h <;> split at h <;> omega

theorem clbp_surj (b k c : ℕ) (hb : b < k) :
    ∃ j, j < k ∧ calc_local_bit_pos j k c = b := by
  by_cases hcase : b < k - c
  · exact ⟨b + c, by omega, by rw [calc_local_bit_pos, if_neg (by omega)]; omega⟩
  · exact ⟨k - b - 1, by omega, by rw [calc_local_bit_pos, if_pos (by omega)]; omega⟩

theorem testBit_maskOf (qs : List ℕ) (b : ℕ) :
    (maskOf qs).testBit b = true ↔ b ∈ qs := by
  induction qs with
  | nil => simp [maskOf, Nat.zero_testBit]
  | cons q rest ih =>
    rw [maskOf, Nat.testBit_lor, Bool.or_eq_true, ih, testBit_one_shiftLeft,
      List.mem_cons, eq_comm]

theorem testBit_entry (k c : ℕ) :
    ∀ (qs : List ℕ) (p i b : ℕ),
      (entry k c qs p i).testBit b = true ↔
        ∃ j, qs[j]? = some b ∧ i.testBit (calc_local_bit_pos (p + j) k c) = true := by
  intro qs
  induction qs with
  | nil =>
    intro p i b
    rw [entry]
    simp [Nat.zero_testBit]
  | cons q rest ih =>
    intro p i b
    rw [entry, Nat.testBit_lor, Bool.or_eq_true, ih (p + 1) i b]
    constructor
    · rintro (hfirst | ⟨j, hj, hbit⟩)
      · by_cases hbit : i.testBit (calc_local_bit_pos p k c) = true
        · rw [if_pos hbit, testBit_one_shiftLeft] at hfirst
          exact ⟨0, by rw [List.getElem?_cons_zero, hfirst], by rw [Nat.add_zero]; exact hbit⟩
        · rw [Bool.not_eq_true] at hbit
          rw [if_neg (by rw [hbit]; exact Bool.false_ne_true), Nat.zero_testBit] at hfirst
          exact Bool.noConfusion hfirst
      · exact ⟨j + 1, by rw [List.getElem?_cons_succ]; exact hj,
          by rw [show p + (j + 1) = p + 1 + j by omega]; exact hbit⟩
    · rintro ⟨j, hj, hbit⟩
      cases j with
      | zero =>
        rw [List.getElem?_cons_zero] at hj
        have hq : q = b := Option.some.inj hj
        rw [Nat.add_zero] at hbit
        exact Or.inl (by rw [if_pos hbit, testBit_one_shiftLeft]; exact hq)
      | succ j' =>
        rw [List.getElem?_cons_succ] at hj
        exact Or.inr ⟨j', hj, by rw [show p + 1 + j' = p + (j' + 1) by omega]; exact hbit⟩

theorem entry_zero (k c : ℕ) : ∀ (qs : List ℕ) (p : ℕ), entry k c qs p 0 = 0 := by
  intro qs
  induction qs with
  | nil => intro p; rfl
  | cons q rest ih =>
    intro p
    rw [entry, ih (p + 1),
      if_neg (by rw [Nat.zero_testBit]; exact Bool.false_ne_true), Nat.zero_or]

theorem and_mask_eq_self_iff (w m : ℕ) :
    w &&& m = w ↔ ∀ b, w.testBit b = true → m.testBit b = true := by
  constructor
  · intro h b hb
    have hthis : (w &&& m).testBit b = w.testBit b := by rw [h]
    rw [Nat.testBit_land, hb, Bool.true_and] at hthis
    exact hthis
  · intro h
    apply Nat.eq_of_testBit_eq
    intro b
    rw [Nat.testBit_land]
    cases hw : w.testBit b
    · rw [Bool.false_and]
    · simp [h b hw]

theorem mem_of_getElem?' {qs : List ℕ} {j b : ℕ} (h : qs[j]? = some b) : b ∈ qs := by
  obtain ⟨hlt, rfl⟩ := List.getElem?_eq_some.mp h
  exact List.getElem_mem hlt

theorem nodup_getElem?_inj {qs : List ℕ} (hnd : qs.Nodup) {j j' b : ℕ}
    (h1 : qs[j]? = some b) (h2 : qs[j']? = some b) : j = j' := by
  obtain ⟨hlt1, he1⟩ := List.getElem?_eq_some.mp h1
  obtain ⟨hlt2, he2⟩ := List.getElem?_eq_some.mp h2
  have : qs.get ⟨j, hlt1⟩ = qs.get ⟨j', hlt2⟩ := by
    rw [List.get_eq_getElem, List.get_eq_getElem, he1, he2]
  exact Fin.mk.injEq .. ▸ (hnd.get_inj_iff.mp this)

/-- Distinct local indices get distinct `state_map` entries. -/
theorem entry_inj (k c : ℕ) (qs : List ℕ) (hk : qs.length = k) (hnd : qs.Nodup)
    (i i' : ℕ) (hi : i < 2 ^ k) (hi' : i' < 2 ^ k)
    (h : entry k c qs 0 i = entry k c qs 0 i') : i = i' := by
  apply Nat.eq_of_testBit_eq
  intro b
  by_cases hb : b < k
  · obtain ⟨j, hjk, hjb⟩ := clbp_surj b k c hb
    have hjlen : j < qs.length := by omega
    have key : ∀ m : ℕ,
        (entry k c qs 0 m).testBit qs[j] = true ↔ m.testBit (calc_local_bit_pos j k c) = true := by
      intro m
      rw [testBit_entry]
      constructor
      · rintro ⟨j', hj', hbit⟩
        have hj : qs[j]? = some qs[j] := List.getElem?_eq_getElem hjlen
        have : j' = j := nodup_getElem?_inj hnd hj' hj
        subst this
        rw [Nat.zero_add] at hbit
        exact hbit
      · intro hbit
        exact ⟨j, List.getElem?_eq_getElem hjlen, by rw [Nat.zero_add]; exact hbit⟩
    have hcong : (entry k c qs 0 i).testBit qs[j] = (entry k c qs 0 i').testBit qs[j] := by
      rw [h]
    have hsame : i.testBit (calc_local_bit_pos j k c) =
        i'.testBit (calc_local_bit_pos j k c) := by
      cases hm : i.testBit (calc_local_bit_pos j k c) with
      | true =>
        have := (key i').mp (by rw [← hcong]; exact (key i).mpr hm)
        rw [this]
      | false =>
        cases hm' : i'.testBit (calc_local_bit_pos j k c) with
        | true =>
          have := (key i).mp (by rw [hcong]; exact (key i').mpr hm')
          rw [hm] at this
          exact Bool.noConfusion this
        | false => rfl
    rw [← hjb]
    exact hsame
  · have h1 : i.testBit b = false :=
      Nat.testBit_eq_false_of_lt (lt_of_lt_of_le hi (Nat.pow_le_pow_right (by omega) (by omega)))
    have h2 : i'.testBit b = false :=
      Nat.testBit_eq_false_of_lt (lt_of_lt_of_le hi' (Nat.pow_le_pow_right (by omega) (by omega)))
    rw [h1, h2]

theorem testBit_decode (k c : ℕ) :
    ∀ (qs : List ℕ) (p w b : ℕ),
      (decode k c qs p w).testBit b = true ↔
        ∃ j q, qs[j]? = some q ∧ w.testBit q = true ∧
          b = calc_local_bit_pos (p + j) k c := by
  intro qs
  induction qs with
  | nil =>
    intro p w b
    rw [decode]
    simp [Nat.zero_testBit]
  | cons q rest ih =>
    intro p w b
    rw [decode, Nat.testBit_lor, Bool.or_eq_true, ih (p + 1) w b]
    constructor
    · rintro (hfirst | ⟨j, q', hj, hq', hb⟩)
      · by_cases hbit : w.testBit q = true
        · rw [if_pos hbit, testBit_one_shiftLeft] at hfirst
          exact ⟨0, q, List.getElem?_cons_zero, hbit, by rw [Nat.add_zero]; exact hfirst.symm⟩
        · rw [Bool.not_eq_true] at hbit
          rw [if_neg (by rw [hbit]; exact Bool.false_ne_true), Nat.zero_testBit] at hfirst
          exact Bool.noConfusion hfirst
      · exact ⟨j + 1, q', by rw [List.getElem?_cons_succ]; exact hj, hq',
          by rw [show p + (j + 1) = p + 1 + j by omega]; exact hb⟩
    · rintro ⟨j, q', hj, hq', hb⟩
      cases j with
      | zero =>
        rw [List.getElem?_cons_zero] at hj
        have hqq : q = q' := Option.some.inj hj
        subst hqq
        rw [Nat.add_zero] at hb
        refine Or.inl ?_
        rw [if_pos hq', testBit_one_shiftLeft]
        exact hb.symm
      | succ j' =>
        rw [List.getElem?_cons_succ] at hj
        exact Or.inr ⟨j', q', hj, hq',
          by rw [show p + 1 + j' = p + (j' + 1) by omega]; exact hb⟩

theorem decode_lt (k c : ℕ) :
    ∀ (qs : List ℕ) (p w : ℕ), p + qs.length ≤ k → decode k c qs p w < 2 ^ k := by
  intro qs
  induction qs with
  | nil => intro p w _; rw [decode]; exact Nat.two_pow_pos k
  | cons q rest ih =>
    intro p w hp
    rw [decode]
    refine Nat.or_lt_two_pow ?_ (ih (p + 1) w (by simp at hp ⊢; omega))
    by_cases hbit : w.testBit q = true
    · rw [if_pos hbit, Nat.one_shiftLeft]
      exact Nat.pow_lt_pow_right one_lt_two (clbp_lt p k c (by simp at hp; omega))
    · rw [Bool.not_eq_true] at hbit
      rw [if_neg (by rw [hbit]; exact Bool.false_ne_true)]
      exact Nat.two_pow_pos k

/-- Decoding a submask of `maskOf qs` and re-encoding it restores it:
the `state_map` hits every global offset inside the mask. -/
theorem entry_decode (k c : ℕ) (qs : List ℕ) (hk : qs.length ≤ k) (hnd : qs.Nodup)
    (w : ℕ) (hsub : ∀ b, w.testBit b = true → b ∈ qs) :
    entry k c qs 0 (decode k c qs 0 w) = w := by
  apply Nat.eq_of_testBit_eq
  intro b
  by_cases hlhs : (entry k c qs 0 (decode k c qs 0 w)).testBit b = true
  · rw [hlhs]
    obtain ⟨j, hj, hbit⟩ := (testBit_entry k c qs 0 _ b).mp hlhs
    rw [Nat.zero_add] at hbit
    obtain ⟨j', q', hj', hq', hb⟩ := (testBit_decode k c qs 0 _ _).mp hbit
    rw [Nat.zero_add] at hb
    have hjlen : j < qs.length := (List.getElem?_eq_some.mp hj).1
    have hj'len : j' < qs.length := (List.getElem?_eq_some.mp hj').1
    have : j = j' := clbp_inj j j' k c (by omega) (by omega) hb
    subst this
    have : q' = b := by
      have := hj.symm.trans hj'
      exact (Option.some.inj this).symm
    subst this
    exact hq'.symm
  · rw [Bool.not_eq_true] at hlhs
    rw [hlhs]
    cases hw : w.testBit b with
    | false => rfl
    | true =>
      exfalso
      have hmem : b ∈ qs := hsub b hw
      obtain ⟨⟨j, hjlen⟩, hget⟩ := List.mem_iff_get.mp hmem
      have hj : qs[j]? = some b := by
        rw [List.getElem?_eq_getElem hjlen]
        rw [List.get_eq_getElem] at hget
        rw [hget]
      have hdec : (decode k c qs 0 w).testBit (calc_local_bit_pos j k c) = true :=
        (testBit_decode k c qs 0 w _).mpr ⟨j, b, hj, hw, by rw [Nat.zero_add]⟩
      have hent : (entry k c qs 0 (decode k c qs 0 w)).testBit b = true :=
        (testBit_entry k c qs 0 _ b).mpr ⟨j, hj, by rw [Nat.zero_add]; exact hdec⟩
      rw [hlhs] at hent
      exact Bool.noConfusion hent

/-- C2: on success, `MappedGate::new` produces a `state_map` of length
`2^k` with `state_map[0] = 0`, every entry a submask of `qubits_mask`,
and `i ↦ state_map[i]` a bijection from `[0, 2^k)` onto the set of
global indices whose set bits lie inside `qubits_mask`. -/
theorem C2_state_map_bijection (g : Gate) (qs : List ℕ) (mq : Option ℕ) (mg : MappedGate)
    (h : MappedGate.new g qs mq = .ok mg) :
    mg.state_map.length = 2 ^ qs.length ∧
      mg.state_map[0]? = some 0 ∧
      (∀ (i v : ℕ), mg.state_map[i]? = some v → v &&& mg.qubits_mask = v) ∧
      (∀ (i i' : ℕ), i < 2 ^ qs.length → i' < 2 ^ qs.length →
        mg.state_map[i]? = mg.state_map[i']? → i = i') ∧
      (∀ w : ℕ, w &&& mg.qubits_mask = w →
        ∃ i, i < 2 ^ qs.length ∧ mg.state_map[i]? = some w) := by
  obtain ⟨hgate, hmask, hlen, hnd, hsm⟩ := new_ok_spec g qs mq mg h
  refine ⟨hlen, ?_, ?_, ?_, ?_⟩
  · rw [hsm 0 (Nat.two_pow_pos _), entry_zero]
  · intro i v hv
    by_cases hi : i < 2 ^ qs.length
    · rw [hsm i hi] at hv
      have hv' : v = entry qs.length g.count_controlled qs 0 i := Option.some.inj hv.symm
      subst hv'
      rw [hmask, and_mask_eq_self_iff]
      intro b hb
      obtain ⟨j, hj, -⟩ := (testBit_entry _ _ qs 0 i b).mp hb
      exact (testBit_maskOf qs b).mpr (mem_of_getElem?' hj)
    · rw [List.getElem?_eq_none (by omega)] at hv
      exact Option.noConfusion hv
  · intro i i' hi hi' hii
    rw [hsm i hi, hsm i' hi'] at hii
    exact entry_inj qs.length g.count_controlled qs rfl hnd i i' hi hi'
      (Option.some.inj hii)
  · intro w hw
    refine ⟨decode qs.length g.count_controlled qs 0 w,
      decode_lt _ _ qs 0 w (by omega), ?_⟩
    rw [hsm _ (decode_lt _ _ qs 0 w (by omega))]
    rw [entry_decode _ _ qs (le_refl _) hnd w ?_]
    intro b hb
    rw [hmask, and_mask_eq_self_iff] at hw
    exact (testBit_maskOf qs b).mp (hw b hb)

/-- Witness for C2: a CNOT bound to qubits `[0, 1]` of a 2-qubit circuit
builds `state_map = [0, 2, 1, 3]` with `qubits_mask = 3`. -/
theorem C2_state_map_bijection_witness :
    (MappedGate.mk (.Controlled .Not) [0, 2, 1, 3] 3).state_map.length =
      2 ^ ([0, 1] : List ℕ).length :=
  (C2_state_map_bijection (.Controlled .Not) [0, 1] (some 2)
    (.mk (.Controlled .Not) [0, 2, 1, 3] 3) rfl).1

/-! ## Gate application (`Gate::apply`, `MappedGate::apply`,
`Circuit::apply`) -/

/-- `FRAC_1_SQRT_2` (`core::f64::consts`). -/
noncomputable def FRAC_1_SQRT_2 : ℝ := (Real.sqrt 2)⁻¹

/-- The gather loop of `MappedGate::apply`
(`substate[i] = state[outer_index | inner_index]`); `none` models the
index-out-of-bounds panic. -/
def gatherSub (s : List ℂ) (outer : ℕ) : List ℕ → Option (List ℂ)
  | [] => some []
  | inner :: rest =>
      match s[outer ||| inner]? with
      | none => none
      | some v => (gatherSub s outer rest).map fun t => v :: t

/-- The scatter loop of `MappedGate::apply`
(`state[outer_index | inner_index] = substate[i]`). -/
def scatterSub (outer : ℕ) : List ℂ → List ℕ → List ℂ → Option (List ℂ)
  | s, [], [] => some s
  | s, inner :: restIdx, v :: restV =>
      if outer ||| inner < s.length then
        scatterSub outer (s.set (outer ||| inner) v) restIdx restV
      else none
  | _, _, _ => none

mutual

/-- `Gate::apply` of `src/gate.rs` on a local buffer.  Out-of-bounds
indexing (a buffer shorter than the variant requires) is the `none`
(panic) case; each arm matches the source's in-place updates. -/
noncomputable def Gate.apply : Gate → List ℂ → Option (List ℂ)
  | .Hadamard, a :: b :: rest =>
      some (((FRAC_1_SQRT_2 : ℂ) * (a + b)) :: ((FRAC_1_SQRT_2 : ℂ) * (a - b)) :: rest)
  | .Hadamard, _ => none
  | .Not, a :: b :: rest => some (b :: a :: rest)
  | .Not, _ => none
  | .Swap, a :: b :: c :: rest => some (a :: c :: b :: rest)
  | .Swap, _ => none
  | .Phase p, a :: b :: rest => some (a :: (b * p) :: rest)
  | .Phase _, _ => none
  | .Controlled g, s =>
      match Gate.apply g (s.drop (s.length / 2)) with
      | none => none
      | some upper => some (s.take (s.length / 2) ++ upper)
  | .Circuit c, s => Circuit.apply c s
termination_by g s => (sizeOf g, 0)

/-- `Circuit::apply`: run every mapped gate in order. -/
noncomputable def Circuit.apply : Circuit → List ℂ → Option (List ℂ)
  | .mk _ gs, s => MGList.applyAll gs s
termination_by c s => (sizeOf c, 0)

noncomputable def MGList.applyAll : MGList → List ℂ → Option (List ℂ)
  | .nil, s => some s
  | .cons mg rest, s =>
      match MappedGate.apply mg s with
      | none => none
      | some s' => MGList.applyAll rest s'
termination_by gs s => (sizeOf gs, 0)

/-- `MappedGate::apply`: `state.len() / substate.len()` rounds of
gather / inner gate / scatter over the residual blocks.  (The source
would panic on division by an empty `state_map`; `MappedGate::new`
always produces `2^k ≥ 1` entries.) -/
noncomputable def MappedGate.apply : MappedGate → List ℂ → Option (List ℂ)
  | .mk g sm mask, s => mgBlocks g sm mask (s.length / sm.length) 0 s
termination_by mg s => (sizeOf mg, 0)

noncomputable def mgBlocks (g : Gate) (sm : List ℕ) (mask : ℕ) :
    ℕ → ℕ → List ℂ → Option (List ℂ)
  | 0, _, s => some s
  | n + 1, outer, s =>
      match gatherSub s outer sm with
      | none => none
      | some sub =>
          match Gate.apply g sub with
          | none => none
          | some sub' =>
              match scatterSub outer s sm sub' with
              | none => none
              | some s' => mgBlocks g sm mask n (((outer ||| mask) + 1).ldiff mask) s'
termination_by n outer s => (sizeOf g, n + 1)

end

/-- C6: applying `Controlled(g)` to an even-length local buffer applies
`g` to exactly the upper half (indices `[len/2, len)`) and leaves every
amplitude of the lower half (indices `[0, len/2)`) unchanged. -/
theorem C6_controlled_frame (g : Gate) (s t : List ℂ) (hlen : 2 ∣ s.length)
    (h : Gate.apply (.Controlled g) s = some t) :
    (∀ i, i < s.length / 2 → t[i]? = s[i]?) ∧
      Gate.apply g (s.drop (s.length / 2)) = some (t.drop (s.length / 2)) := by
  rw [Gate.apply] at h
  cases happ : Gate.apply g (s.drop (s.length / 2)) with
  | none =>
    rw [happ] at h
    exact Option.noConfusion h
  | some upper =>
    rw [happ] at h
    have ht : t = s.take (s.length / 2) ++ upper := (Option.some.inj h).symm
    subst ht
    have htake : (s.take (s.length / 2)).length = s.length / 2 := by
      rw [List.length_take]
      exact min_eq_left (Nat.div_le_self _ _)
    constructor
    · intro i hi
      rw [List.getElem?_append, htake, if_pos hi, List.getElem?_take, if_pos hi]
    · rw [List.drop_left' htake]

/-- Witness for C6: a controlled NOT on the buffer `[1, 0, 0, 1]`. -/
theorem C6_controlled_frame_witness :
    (∀ i, i < ([1, 0, 0, 1] : List ℂ).length / 2 →
        ([1, 0, 1, 0] : List ℂ)[i]? = ([1, 0, 0, 1] : List ℂ)[i]?) ∧
      Gate.apply .Not (([1, 0, 0, 1] : List ℂ).drop (([1, 0, 0, 1] : List ℂ).length / 2)) =
        some (([1, 0, 1, 0] : List ℂ).drop (([1, 0, 0, 1] : List ℂ).length / 2)) :=
  C6_controlled_frame .Not [1, 0, 0, 1] [1, 0, 1, 0] (by decide)
    (by simp [Gate.apply])

/-! ## QFT builder (`src/qft.rs`) -/

/-- Functional form of `Circuit::add_gate` (the `?`-propagating call
sites): returns the extended circuit on success. -/
def Circuit.add_gateE (c : Circuit) (gate : Gate) (qubit_indices : List ℕ) :
    Except QubitError Circuit :=
  match MappedGate.new gate qubit_indices c.qubit_count with
  | .error e => .error e
  | .ok mg => .ok (.mk c.qubit_count (c.gatesMG.push mg))

/-- Fold a list of `(gate, qubit indices)` pairs through `add_gate`,
stopping at the first error. -/
def addGateList : Circuit → List (Gate × List ℕ) → Except QubitError Circuit
  | c, [] => .ok c
  | c, gq :: rest =>
      match Circuit.add_gateE c gq.1 gq.2 with
      | .error e => .error e
      | .ok c' => addGateList c' rest

/-- The value `f64::from(1 << (i - j + 1))` computes, as an integer:
the literal `1` is an `i32` (the only `From`-eligible type after
fallback), so the shift wraps into `i32`: values up to `2^30` for shift
amounts `≤ 30`, `i32::MIN = -2^31` at `31`, and a shift-amount overflow
panic (debug profile) at `32`, modelled by `none`. -/
def i32Shl1? (s : ℕ) : Option ℤ :=
  if s < 32 then some ((((1 <<< s : ℕ) : ℤ) + 2 ^ 31) % 2 ^ 32 - 2 ^ 31) else none

/-- The inner `for j in 0..i` loop of `build_qft_circuit_custom`:
controlled phase gates with fraction `1 / (1 << (i - j + 1))`.
The overall `none` models the shift-overflow panic. -/
noncomputable def qftJLoop (i : ℕ) : List ℕ → Circuit → Option (Except QubitError Circuit)
  | [], c => some (.ok c)
  | j :: rest, c =>
      match i32Shl1? (i - j + 1) with
      | none => none
      | some d =>
          match c.add_gateE ((Gate.phase_fraction ((1 : ℝ) / (d : ℝ))).control) [i, j] with
          | .error e => some (.error e)
          | .ok c' => qftJLoop i rest c'

/-- The outer `for i in (0..n_qubits).rev()` loop: a Hadamard on qubit
`i`, then the controlled phases. -/
noncomputable def qftILoop : List ℕ → Circuit → Option (Except QubitError Circuit)
  | [], c => some (.ok c)
  | i :: rest, c =>
      match c.add_gateE .Hadamard [i] with
      | .error e => some (.error e)
      | .ok c' =>
          match qftJLoop i (List.range i) c' with
          | none => none
          | some (.error e) => some (.error e)
          | some (.ok c'') => qftILoop rest c''

/-- The trailing `if do_swaps` loop: `SWAP(i, n - i - 1)` for
`i ∈ [0, n/2)`. -/
def qftSwapLoop (n : ℕ) : List ℕ → Circuit → Except QubitError Circuit
  | [], c => .ok c
  | i :: rest, c =>
      match c.add_gateE .Swap [i, n - i - 1] with
      | .error e => .error e
      | .ok c' => qftSwapLoop n rest c'

/-- `build_qft_circuit_custom` of `src/qft.rs`.  The outer `none`
models a panic: either `Circuit::new`'s assert or the `i32` shift-amount
overflow inside the phase computation. -/
noncomputable def build_qft_circuit_custom (n_qubits : ℕ) (do_swaps : Bool) :
    Option (Except QubitError Circuit) :=
  match Circuit.new? n_qubits with
  | none => none
  | some c0 =>
      match qftILoop (List.range n_qubits).reverse c0 with
      | none => none
      | some (.error e) => some (.error e)
      | some (.ok c) =>
          if do_swaps then some (qftSwapLoop n_qubits (List.range (n_qubits / 2)) c)
          else some (.ok c)

/-- `build_qft_circuit`: the `do_swaps = true` entry point. -/
noncomputable def build_qft_circuit (n_qubits : ℕ) : Option (Except QubitError Circuit) :=
  build_qft_circuit_custom n_qubits true

/-- The gate sequence the claim describes, as a flat list of
`(gate, qubits)` pairs: for `i` from `n-1` down to `0` a Hadamard on `i`
followed by controlled phases with fraction `1 / 2^(i-j+1)` on `[i, j]`
for `j < i`; then, if requested, the bit-reversal swaps. -/
noncomputable def qftSpecGates (n : ℕ) (do_swaps : Bool) : List (Gate × List ℕ) :=
  ((List.range n).reverse.flatMap fun i =>
    (Gate.Hadamard, ([i] : List ℕ)) ::
      ((List.range i).map fun j =>
        ((Gate.phase_fraction ((1 : ℝ) / 2 ^ (i - j + 1))).control, ([i, j] : List ℕ)))) ++
    (if do_swaps then (List.range (n / 2)).map fun i => (Gate.Swap, ([i, n - i - 1] : List ℕ))
      else [])

theorem i32Shl1_small (s : ℕ) (hs : s ≤ 30) : i32Shl1? s = some ((2 : ℤ) ^ s) := by
  have key : (((1 <<< s : ℕ) : ℤ) + 2 ^ 31) % 2 ^ 32 - 2 ^ 31 = (2 : ℤ) ^ s := by
    rw [Nat.one_shiftLeft]
    push_cast
    have hle : (2 : ℤ) ^ s ≤ 2 ^ 30 := by
      have : (2 : ℕ) ^ s ≤ 2 ^ 30 := Nat.pow_le_pow_right (by norm_num) hs
      exact_mod_cast this
    have h30 : (2 : ℤ) ^ 30 = 1073741824 := by norm_num
    rw [h30] at hle
    have hpos : (0 : ℤ) ≤ 2 ^ s := by positivity
    omega
  unfold i32Shl1?
  rw [if_pos (show s < 32 by omega), key]

theorem add_gateE_qubit_count (c : Circuit) (g : Gate) (qs : List ℕ) (c' : Circuit)
    (h : c.add_gateE g qs = .ok c') : c'.qubit_count = c.qubit_count := by
  rw [Circuit.add_gateE] at h
  cases hm : MappedGate.new g qs c.qubit_count with
  | error e =>
    rw [hm] at h
    exact Except.noConfusion h
  | ok mg =>
    rw [hm] at h
    rw [← Except.ok.inj h]
    rfl

theorem add_gateE_ok (n : ℕ) (c : Circuit) (hqc : c.qubit_count = some n)
    (g : Gate) (qs : List ℕ) (hb : ∀ q ∈ qs, q < n) (hnd : qs.Nodup) :
    ∃ c', c.add_gateE g qs = .ok c' := by
  rw [Circuit.add_gateE, MappedGate.new, hqc]
  obtain ⟨out, hout⟩ := (newLoop_ok_iff qs.length g.count_controlled (some n) qs 0
      (List.replicate (2 ^ qs.length) 0) 0).mpr
    ⟨fun q hq => (outOfBounds_some_false n q).mpr (hb q hq), hnd,
      fun q _ => Nat.zero_testBit q⟩
  rw [hout]
  obtain ⟨sm, mask⟩ := out
  exact ⟨_, rfl⟩

theorem addGateList_append (l1 l2 : List (Gate × List ℕ)) :
    ∀ c : Circuit,
      addGateList c (l1 ++ l2) =
        match addGateList c l1 with
        | .error e => .error e
        | .ok c' => addGateList c' l2 := by
  induction l1 with
  | nil => intro c; rfl
  | cons gq rest ih =>
    intro c
    rw [List.cons_append, addGateList, addGateList]
    cases Circuit.add_gateE c gq.1 gq.2 with
    | error e => rfl
    | ok c' => exact ih c'

theorem addGateList_ok (n : ℕ) :
    ∀ (l : List (Gate × List ℕ)) (c : Circuit), c.qubit_count = some n →
      (∀ gq ∈ l, (∀ q ∈ gq.2, q < n) ∧ gq.2.Nodup) →
      ∃ c', addGateList c l = .ok c' ∧ c'.qubit_count = some n := by
  intro l
  induction l with
  | nil => intro c hqc _; exact ⟨c, rfl, hqc⟩
  | cons gq rest ih =>
    intro c hqc hcond
    obtain ⟨c', hc'⟩ := add_gateE_ok n c hqc gq.1 gq.2
      (hcond gq (List.mem_cons_self gq rest)).1 (hcond gq (List.mem_cons_self gq rest)).2
    obtain ⟨c'', hc'', hqc''⟩ := ih c'
      ((add_gateE_qubit_count c gq.1 gq.2 c' hc').trans hqc)
      (fun gq' hgq' => hcond gq' (List.mem_cons_of_mem gq hgq'))
    refine ⟨c'', ?_, hqc''⟩
    rw [addGateList, hc']
    exact hc''

theorem qftJLoop_eq (i : ℕ) (hi : i + 1 ≤ 30) :
    ∀ (js : List ℕ) (c : Circuit),
      qftJLoop i js c = some (addGateList c (js.map fun j =>
        ((Gate.phase_fraction ((1 : ℝ) / 2 ^ (i - j + 1))).control, [i, j]))) := by
  intro js
  induction js with
  | nil => intro c; rfl
  | cons j rest ih =>
    intro c
    rw [qftJLoop, i32Shl1_small (i - j + 1) (by omega), List.map_cons, addGateList]
    dsimp only
    have hcast : (((2 : ℤ) ^ (i - j + 1) : ℤ) : ℝ) = (2 : ℝ) ^ (i - j + 1) := by
      push_cast
      ring
    rw [hcast]
    cases Circuit.add_gateE c ((Gate.phase_fraction ((1 : ℝ) / 2 ^ (i - j + 1))).control)
        [i, j] with
    | error e => rfl
    | ok c' => exact ih c'

theorem qftILoop_eq :
    ∀ (is : List ℕ) (c : Circuit), (∀ i ∈ is, i + 1 ≤ 30) →
      qftILoop is c = some (addGateList c (is.flatMap fun i =>
        (Gate.Hadamard, ([i] : List ℕ)) ::
          ((List.range i).map fun j =>
            ((Gate.phase_fraction ((1 : ℝ) / 2 ^ (i - j + 1))).control, [i, j])))) := by
  intro is
  induction is with
  | nil => intro c _; rfl
  | cons i rest ih =>
    intro c hb
    rw [qftILoop, List.flatMap_cons, List.cons_append, addGateList]
    dsimp only
    cases Circuit.add_gateE c .Hadamard [i] with
    | error e => rfl
    | ok c' =>
      dsimp only
      rw [qftJLoop_eq i (hb i (List.mem_cons_self i rest)) (List.range i) c',
        addGateList_append]
      cases addGateList c' ((List.range i).map fun j =>
          ((Gate.phase_fraction ((1 : ℝ) / 2 ^ (i - j + 1))).control, [i, j])) with
      | error e => rfl
      | ok c'' => exact ih c'' (fun i' hi' => hb i' (List.mem_cons_of_mem i hi'))

theorem qftSwapLoop_eq (n : ℕ) :
    ∀ (is : List ℕ) (c : Circuit),
      qftSwapLoop n is c =
        addGateList c (is.map fun i => (Gate.Swap, [i, n - i - 1])) := by
  intro is
  induction is with
  | nil => intro c; rfl
  | cons i rest ih =>
    intro c
    rw [qftSwapLoop, List.map_cons, addGateList]
    cases Circuit.add_gateE c .Swap [i, n - i - 1] with
    | error e => rfl
    | ok c' => exact ih c'

/-- Counterexample to C5 as stated: at `n = 32` the first controlled
phase of row `i = 31` computes `1 << 32` on `i32`, a shift-amount
overflow (panic in debug profile), so the builder does not return `Ok`
with the claimed circuit. -/
theorem C5_qft_counterexample : build_qft_circuit_custom 32 false = none := rfl

/-- Supporting fact for the other excluded qubit count: at shift amount
`31` (reached for `n = 31` at `i = 30, j = 0`) the `i32` value wraps to
`i32::MIN`, so the fraction becomes `-2⁻³¹` instead of `+2⁻³¹`. -/
theorem i32Shl1_at_31 : i32Shl1? 31 = some (-(2 ^ 31)) := by
  unfold i32Shl1?
  rw [if_pos (by norm_num)]
  norm_num [Nat.one_shiftLeft]

/-- C5 amended: for `1 ≤ n ≤ 30` the builder succeeds and produces
exactly the claimed gate sequence — for `i` from `n-1` down to `0` a
Hadamard on qubit `i` followed by controlled phases with fraction
`1 / 2^(i-j+1)` on `[i, j]` for `j` from `0` to `i-1`, then, if
`do_swaps`, `SWAP(i, n-1-i)` for `i ∈ [0, n/2)`.  For `n = 31` the
`i32` phase computation overflows to a negative fraction and for
`n = 32` it panics, so those two counts are excluded. -/
theorem C5_qft_amended (n : ℕ) (ds : Bool) (h1 : 1 ≤ n) (h2 : n ≤ 30) :
    ∃ c, build_qft_circuit_custom n ds = some (.ok c) ∧
      addGateList (Circuit.mk (some n) .nil) (qftSpecGates n ds) = .ok c := by
  have hnew : Circuit.new? n = some (Circuit.mk (some n) .nil) := by
    rw [Circuit.new?, if_pos (show n ≤ MAX_QUBITS by rw [MAX_QUBITS]; omega)]
  have hcondMain : ∀ gq ∈ ((List.range n).reverse.flatMap fun i =>
      (Gate.Hadamard, ([i] : List ℕ)) ::
        ((List.range i).map fun j =>
          ((Gate.phase_fraction ((1 : ℝ) / 2 ^ (i - j + 1))).control, ([i, j] : List ℕ)))),
      (∀ q ∈ gq.2, q < n) ∧ gq.2.Nodup := by
    intro gq hgq
    obtain ⟨i, hi, hgq'⟩ := List.mem_flatMap.mp hgq
    rw [List.mem_reverse, List.mem_range] at hi
    rcases List.mem_cons.mp hgq' with rfl | hmem
    · refine ⟨fun q hq => ?_, by simp⟩
      rw [List.mem_singleton.mp hq]
      exact hi
    · obtain ⟨j, hj, rfl⟩ := List.mem_map.mp hmem
      rw [List.mem_range] at hj
      refine ⟨fun q hq => ?_, ?_⟩
      · rcases List.mem_cons.mp hq with rfl | hq'
        · exact hi
        · rw [List.mem_singleton.mp hq']
          omega
      · rw [List.nodup_cons]
        refine ⟨fun hmem' => ?_, by simp⟩
        rw [List.mem_singleton.mp hmem'] at hj
        omega
  have hcondSwap : ∀ gq ∈ ((List.range (n / 2)).map fun i =>
      (Gate.Swap, ([i, n - i - 1] : List ℕ))),
      (∀ q ∈ gq.2, q < n) ∧ gq.2.Nodup := by
    intro gq hgq
    obtain ⟨i, hi, rfl⟩ := List.mem_map.mp hgq
    rw [List.mem_range] at hi
    refine ⟨fun q hq => ?_, ?_⟩
    · rcases List.mem_cons.mp hq with rfl | hq'
      · omega
      · rw [List.mem_singleton.mp hq']
        omega
    · rw [List.nodup_cons]
      refine ⟨fun hmem' => ?_, by simp⟩
      have heq := List.mem_singleton.mp hmem'
      omega
  obtain ⟨c1, hc1, hqc1⟩ := addGateList_ok n _ (Circuit.mk (some n) .nil) rfl hcondMain
  have hIL : qftILoop (List.range n).reverse (Circuit.mk (some n) .nil) =
      some (addGateList (Circuit.mk (some n) .nil) ((List.range n).reverse.flatMap fun i =>
        (Gate.Hadamard, ([i] : List ℕ)) ::
          ((List.range i).map fun j =>
            ((Gate.phase_fraction ((1 : ℝ) / 2 ^ (i - j + 1))).control, [i, j])))) :=
    qftILoop_eq (List.range n).reverse (Circuit.mk (some n) .nil) (fun i hi => by
      rw [List.mem_reverse, List.mem_range] at hi
      omega)
  cases ds with
  | false =>
    refine ⟨c1, ?_, ?_⟩
    · rw [build_qft_circuit_custom, hnew]
      dsimp only
      rw [hIL, hc1]
      rfl
    · rw [qftSpecGates, if_neg Bool.false_ne_true, List.append_nil]
      exact hc1
  | true =>
    obtain ⟨c2, hc2, -⟩ := addGateList_ok n _ c1 hqc1 hcondSwap
    refine ⟨c2, ?_, ?_⟩
    · rw [build_qft_circuit_custom, hnew]
      dsimp only
      rw [hIL, hc1]
      show some (qftSwapLoop n (List.range (n / 2)) c1) = _
      rw [qftSwapLoop_eq n (List.range (n / 2)) c1, hc2]
    · rw [qftSpecGates, if_pos rfl, addGateList_append, hc1]
      exact hc2

/-- Witness for the amended C5 at `n = 3` with swaps. -/
theorem C5_qft_amended_witness :
    ∃ c, build_qft_circuit_custom 3 true = some (.ok c) ∧
      addGateList (Circuit.mk (some 3) .nil) (qftSpecGates 3 true) = .ok c :=
  C5_qft_amended 3 true (by decide) (by decide)

/-! ## Measurement (`QuantumSimulator::measure`, `src/simulator.rs`) -/

/-- The `scan(...).last()` of `measure`: walk the amplitudes carrying
the cumulative probability `sum` and the running `index`; emit the index
while `sum ≤ probe`, and return the last emitted index (`none` when
nothing was emitted, which `unwrap_or` replaces by `2ⁿ - 1`). -/
noncomputable def measureScanLast : List ℂ → ℝ → ℝ → ℕ → Option ℕ
  | [], _, _, _ => none
  | a :: rest, probe, sum, index =>
      if probe < sum then none
      else
        match measureScanLast rest probe (sum + Complex.normSq a) (index + 1) with
        | none => some index
        | some r => some r

/-- `QuantumSimulator::init_state`: zero the vector, set entry
`one_index` to `1`. -/
def init_state (len one_index : ℕ) : List ℂ :=
  (List.replicate len (0 : ℂ)).set one_index 1

/-- `QuantumSimulator::measure` with the RNG draw `probe` made explicit:
the sampled outcome together with the collapsed state. -/
noncomputable def measure (state : List ℂ) (probe : ℝ) : ℕ × List ℂ :=
  ((measureScanLast state probe 0 0).getD (state.length - 1),
    init_state state.length ((measureScanLast state probe 0 0).getD (state.length - 1)))

/-- `S_i` before adding `|state[i]|²`: the sum of `|state[j]|²` over
`j < i`. -/
noncomputable def prefixNormSq (s : List ℂ) (i : ℕ) : ℝ :=
  ((s.take i).map Complex.normSq).sum

theorem prefixNormSq_zero (s : List ℂ) : prefixNormSq s 0 = 0 := by
  simp [prefixNormSq]

theorem prefixNormSq_cons_succ (a : ℂ) (rest : List ℂ) (j : ℕ) :
    prefixNormSq (a :: rest) (j + 1) = Complex.normSq a + prefixNormSq rest j := by
  simp [prefixNormSq]

theorem prefixNormSq_nonneg (s : List ℂ) (i : ℕ) : 0 ≤ prefixNormSq s i := by
  refine List.sum_nonneg ?_
  intro x hx
  obtain ⟨z, -, rfl⟩ := List.mem_map.mp hx
  exact Complex.normSq_nonneg z

theorem prefixNormSq_le_succ (s : List ℂ) (j : ℕ) :
    prefixNormSq s j ≤ prefixNormSq s (j + 1) := by
  induction s generalizing j with
  | nil => simp [prefixNormSq]
  | cons a rest ih =>
    cases j with
    | zero =>
      rw [prefixNormSq_zero, prefixNormSq_cons_succ, prefixNormSq_zero, add_zero]
      exact Complex.normSq_nonneg a
    | succ j' =>
      rw [prefixNormSq_cons_succ, prefixNormSq_cons_succ]
      exact add_le_add_left (ih j') _

theorem prefixNormSq_mono (s : List ℂ) {j j' : ℕ} (h : j ≤ j') :
    prefixNormSq s j ≤ prefixNormSq s j' := by
  induction j' with
  | zero =>
    rw [Nat.le_zero.mp h]
  | succ j'' ih =>
    rcases Nat.lt_or_ge j (j'' + 1) with hlt | hge
    · exact le_trans (ih (by omega)) (prefixNormSq_le_succ s j'')
    · rw [show j = j'' + 1 by omega]

/-- Full characterization of the scan: started below the probe on a
nonempty list, it returns the largest offset whose before-sum stays
`≤ probe` (and that offset's threshold is exceeded unless the list ran
out). -/
theorem measureScanLast_spec :
    ∀ (s : List ℂ) (probe acc : ℝ) (i0 : ℕ), s ≠ [] → acc ≤ probe →
      ∃ jj, measureScanLast s probe acc i0 = some (i0 + jj) ∧ jj < s.length ∧
        acc + prefixNormSq s jj ≤ probe ∧
        (∀ j', j' < s.length → acc + prefixNormSq s j' ≤ probe → j' ≤ jj) ∧
        (jj = s.length - 1 ∨ probe < acc + prefixNormSq s (jj + 1)) := by
  intro s
  induction s with
  | nil => intro probe acc i0 hne _; exact absurd rfl hne
  | cons a rest ih =>
    intro probe acc i0 _ hacc
    rw [measureScanLast, if_neg (not_lt.mpr hacc)]
    cases hrest : rest with
    | nil =>
      refine ⟨0, ?_, by simp, ?_, ?_, ?_⟩
      · rw [measureScanLast, Nat.add_zero]
      · rw [prefixNormSq_zero, add_zero]; exact hacc
      · intro j' hj' _
        simp at hj'
        omega
      · left; rfl
    | cons b r =>
      by_cases hc : acc + Complex.normSq a ≤ probe
      · obtain ⟨jj', heq', hlt', hle', hmax', hlast'⟩ :=
          ih probe (acc + Complex.normSq a) (i0 + 1) (by rw [hrest]; simp) hc
        rw [hrest] at heq' hlt' hle' hmax' hlast'
        rw [heq']
        refine ⟨jj' + 1, by rw [show i0 + 1 + jj' = i0 + (jj' + 1) by omega], by
          simp at hlt' ⊢; omega, ?_, ?_, ?_⟩
        · rw [prefixNormSq_cons_succ, ← add_assoc]
          exact hle'
        · intro j' hj' hsum
          cases j' with
          | zero => omega
          | succ j'' =>
            rw [prefixNormSq_cons_succ, ← add_assoc] at hsum
            have := hmax' j'' (by simp at hj' ⊢; omega) hsum
            omega
        · rcases hlast' with h | h
          · left
            simp at h ⊢
            omega
          · right
            rw [prefixNormSq_cons_succ, ← add_assoc]
            exact h
      · have hinner : measureScanLast (b :: r) probe (acc + Complex.normSq a) (i0 + 1) =
            none := by
          rw [measureScanLast, if_pos (not_le.mp hc)]
        rw [hinner]
        refine ⟨0, by rw [Nat.add_zero], by simp, ?_, ?_, ?_⟩
        · rw [prefixNormSq_zero, add_zero]; exact hacc
        · intro j' hj' hsum
          cases j' with
          | zero => omega
          | succ j'' =>
            exfalso
            rw [prefixNormSq_cons_succ, ← add_assoc] at hsum
            have := le_trans (le_add_of_nonneg_right (prefixNormSq_nonneg (b :: r) j'')) hsum
            exact absurd this hc
        · right
          rw [prefixNormSq_cons_succ, prefixNormSq_zero, add_zero]
          exact not_le.mp hc

/-- C1: for a state of length `2ⁿ` and a probe `p ∈ [0, 1)`, `measure`
returns the largest index whose before-sum `S_i = Σ_{j<i} |state[j]|²`
is `≤ p` — equivalently the smallest index whose running total exceeds
`p`, falling back to `2ⁿ - 1` — and collapses the state via
`init_state(outcome)`, leaving exactly one amplitude equal to `1` and
all others `0`. -/
theorem C1_measure_spec (state : List ℂ) (probe : ℝ) (n : ℕ)
    (hlen : state.length = 2 ^ n) (hp0 : 0 ≤ probe) (hp1 : probe < 1) :
    (measure state probe).1 < state.length ∧
      prefixNormSq state (measure state probe).1 ≤ probe ∧
      (∀ i, i < state.length → prefixNormSq state i ≤ probe →
        i ≤ (measure state probe).1) ∧
      ((measure state probe).1 = state.length - 1 ∨
        probe < prefixNormSq state ((measure state probe).1 + 1)) ∧
      (∀ i, i < (measure state probe).1 → prefixNormSq state (i + 1) ≤ probe) ∧
      (measure state probe).2.length = state.length ∧
      (measure state probe).2[(measure state probe).1]? = some 1 ∧
      (∀ j, j < state.length → j ≠ (measure state probe).1 →
        (measure state probe).2[j]? = some 0) := by
  have hne : state ≠ [] := by
    intro h
    rw [h, List.length_nil] at hlen
    exact absurd hlen.symm (Nat.two_pow_pos n).ne'
  obtain ⟨jj, heq, hlt, hle, hmax, hlast⟩ := measureScanLast_spec state probe 0 0 hne hp0
  rw [zero_add] at heq
  have hfst : (measure state probe).1 = jj := by
    show (measureScanLast state probe 0 0).getD (state.length - 1) = jj
    rw [heq]
    rfl
  have hsnd : (measure state probe).2 = init_state state.length jj := by
    show init_state state.length ((measureScanLast state probe 0 0).getD
      (state.length - 1)) = init_state state.length jj
    rw [heq]
    rfl
  rw [hfst, hsnd]
  have hb : prefixNormSq state jj ≤ probe := by
    have := hle
    rwa [zero_add] at this
  refine ⟨hlt, hb, ?_, ?_, ?_, ?_, ?_, ?_⟩
  · intro i hi hsum
    exact hmax i hi (by rwa [zero_add])
  · rcases hlast with h | h
    · exact Or.inl h
    · right
      rwa [zero_add] at h
  · intro i hi
    exact le_trans (prefixNormSq_mono state (by omega)) hb
  · rw [init_state, List.length_set, List.length_replicate]
  · rw [init_state]
    exact List.getElem?_set_self (by rw [List.length_replicate]; exact hlt)
  · intro j hj hne'
    rw [init_state, List.getElem?_set_ne (fun hc => hne' hc.symm),
      List.getElem?_replicate, if_pos hj]

/-- Witness for C1: measuring the basis state `[1, 0]` with probe `1/2`
selects outcome `0`. -/
theorem C1_measure_spec_witness :
    (measure [1, 0] (1 / 2)).1 < ([1, 0] : List ℂ).length :=
  (C1_measure_spec [1, 0] (1 / 2) 1 rfl one_half_pos.le one_half_lt_one).1

end Qvass
